import Mathlib

/-!
Verification of the mountain-car DDPG driver (`mountain_car.py`) and the
actor network construction (`actor.py`).

Numeric values carried by the Python code (rewards, states, actions,
network outputs) are modelled as rationals (`ℚ`); Python float literals
such as `1.2` or `0.07` are written as the exact rational scientific
literals Lean parses them to.  The DDPG agent, the gym environment and
the Keras backend are external collaborators of the code under
verification: they enter the model as oracle data (the per-step values
they would return) or as opaque function fields, and the code's calls to
them are recorded in an explicit event trace.
-/

namespace MountainCarSpec

/-- `np.mean` of a list of rationals (sum divided by length; `0` on the
empty list, where `ℚ` division by zero yields zero). -/
def mean (l : List ℚ) : ℚ := l.sum / l.length

/-- Python's slice `l[-n:]`: the last `n` elements, except that `n = 0`
yields the whole list (Python `l[-0:]` is `l[0:]`). -/
def takeLastPy (n : ℕ) (l : List α) : List α :=
  if n = 0 then l else l.drop (l.length - n)

/-! ## Actor (`actor.py`) -/

/-- The fields of `Actor.__init__` that determine the output-scaling
Lambda layer and the training loss (one action dimension of the
per-dimension affine rescale). -/
structure Actor where
  action_low : ℚ
  action_high : ℚ
  action_range : ℚ

/-- `Actor.__init__`: stores `action_low`, `action_high` and computes
`action_range = action_high - action_low`. -/
def Actor.mk' (action_low action_high : ℚ) : Actor :=
  { action_low := action_low
    action_high := action_high
    action_range := action_high - action_low }

/-- The rescaling Lambda layer of `Actor.build_model`, per action
dimension: `lambda x: ((x + 1) * self.action_range / 2) + self.action_low`. -/
def Actor.lambdaLayer (a : Actor) (x : ℚ) : ℚ :=
  ((x + 1) * a.action_range / 2) + a.action_low

/-- The spec's rescaling formula, written from the spec's words:
`scaled = low + (raw_tanh + 1) * (high - low) / 2`. -/
def specRescale (low high x : ℚ) : ℚ :=
  low + (x + 1) * (high - low) / 2

/-- The actor training loss of `Actor.build_model`:
`loss = K.mean(-action_gradients * actions)`, over the flattened batch of
action-gradient inputs `g` and actor outputs `a` (elementwise product). -/
def actorLoss (g a : List ℚ) : ℚ :=
  mean (List.zipWith (fun gi ai => -gi * ai) g a)

/-! ## Environment state preprocessing (`MountainCar.preprocess_state`) -/

/-- `MountainCar.preprocess_state`: maps the raw
`(position, velocity)` state to `[-1, 1]` coordinates:
`s[0] = ((state[0] + 1.2) / 1.8) * 2 - 1`,
`s[1] = ((state[1] + 0.07) / 0.14) * 2 - 1`. -/
def preprocessState (s : ℚ × ℚ) : ℚ × ℚ :=
  (((s.1 + 1.2) / 1.8) * 2 - 1, ((s.2 + 0.07) / 0.14) * 2 - 1)

/-! ## Episode driver (`MountainCar.run_epoch`)

The DDPG agent and the gym environment are collaborators outside the
verified source; a `StepData` record holds, for one loop iteration, the
values they would return (`agent.act` → noisy/pure action pair,
`env.step` → raw next state, reward, done flag).  The calls `run_epoch`
makes on them are recorded in a `CallEvent` trace. -/

/-- One call of the driver code on its collaborators: the agent's
`reset_episode`/`act`/`step`, the environment's `step`, and the
read-only `model.predict` queries of `plot_Q` on `critic_local` and
`actor_local`. -/
inductive CallEvent where
  | resetEpisode (s : ℚ × ℚ)
  | agentAct (s : ℚ × ℚ)
  | envStep (a : ℚ)
  | agentStep (a r : ℚ) (ns : ℚ × ℚ) (d : Bool)
  | criticPredict (pos vel act : ℚ)
  | actorPredict (pos vel : ℚ)
  deriving DecidableEq, Repr

/-- `e.isEnvStep` holds of environment `step` calls. -/
def CallEvent.isEnvStep : CallEvent → Bool
  | .envStep _ => true
  | _ => false

/-- `e.isAgentStep` holds of agent learning-step calls. -/
def CallEvent.isAgentStep : CallEvent → Bool
  | .agentStep _ _ _ _ => true
  | _ => false

/-- `e.isAgentCall` holds of the calls made on the agent
(`reset_episode`, `act`, `step`). -/
def CallEvent.isAgentCall : CallEvent → Bool
  | .resetEpisode _ => true
  | .agentAct _ => true
  | .agentStep _ _ _ _ => true
  | _ => false

/-- `e.isPredictOnly` holds of the read-only prediction queries
(`critic_local.model.predict`, `actor_local.model.predict`). -/
def CallEvent.isPredictOnly : CallEvent → Bool
  | .criticPredict _ _ _ => true
  | .actorPredict _ _ => true
  | _ => false

/-- Collaborator oracle data for one `run_epoch` loop iteration: the
noisy/pure action pair `agent.act` returns and the raw next state,
reward and done flag `env.step` returns. -/
structure StepData where
  noisy_action : ℚ
  pure_action : ℚ
  reward : ℚ
  rawNext : ℚ × ℚ
  done : Bool
  deriving DecidableEq, Repr

/-- The values `run_epoch` returns: `(total_reward, done, action_mean,
action_std, steps)`, where `action_mean`/`action_std` are `np.mean`/
`np.std` of the recorded `actions_list`.  The model carries
`actions_list` itself (its mean is `mean actions_list`; `np.std`'s
square root is a display-only real number with no exact rational
counterpart), together with the trace of collaborator calls. -/
structure EpochResult where
  total_reward : ℚ
  done : Bool
  actions_list : List ℚ
  steps : ℕ
  trace : List CallEvent
  deriving DecidableEq, Repr

/-- The `while not done` loop of `run_epoch`, driven by the oracle data
list (one `StepData` per iteration).  `none` models an episode whose
oracle data runs out before the environment ever reports `done` (the
Python loop would simply keep running).  Each iteration selects
`action = noisy_action if training else pure_action`, calls `env.step`,
preprocesses the next state, accumulates the reward, records the pure
action, and calls `agent.step` only when training. -/
def runEpochGo (training : Bool) (state : ℚ × ℚ) :
    List StepData → Option EpochResult
  | [] => none
  | d :: rest =>
    let action := if training then d.noisy_action else d.pure_action
    let ns := preprocessState d.rawNext
    let iterTrace := [CallEvent.agentAct state, CallEvent.envStep action] ++
      (if training then [CallEvent.agentStep action d.reward ns d.done]
       else [])
    if d.done then
      some { total_reward := d.reward, done := true,
             actions_list := [d.pure_action], steps := 1, trace := iterTrace }
    else
      match runEpochGo training ns rest with
      | none => none
      | some res =>
        some { total_reward := d.reward + res.total_reward, done := res.done,
               actions_list := d.pure_action :: res.actions_list,
               steps := res.steps + 1, trace := iterTrace ++ res.trace }

/-- `MountainCar.run_epoch`: preprocesses the environment's reset state,
calls `agent.reset_episode` on it, then runs the interaction loop. -/
def runEpoch (training : Bool) (s0raw : ℚ × ℚ) (data : List StepData) :
    Option EpochResult :=
  match runEpochGo training (preprocessState s0raw) data with
  | none => none
  | some res =>
    some { res with
           trace := CallEvent.resetEpisode (preprocessState s0raw) ::
             res.trace }

/-- Body checker for the agent-call trace contract: a concatenation of
per-iteration groups, each an `agentAct` followed, when `training`, by
an `agentStep` (and by nothing when not training).  In particular it
rejects any further `resetEpisode` and any `agentStep` while not
training. -/
def altBody (training : Bool) (l : List CallEvent) : Bool :=
  match l with
  | [] => true
  | CallEvent.agentAct _ :: rest =>
    if training then
      match rest with
      | CallEvent.agentStep _ _ _ _ :: rest2 => altBody training rest2
      | _ => false
    else altBody training rest
  | _ => false

/-- Agent-call trace contract of an episode: exactly one leading
`resetEpisode`, followed by alternating `act`/`step` groups. -/
def altTraceOk (training : Bool) (l : List CallEvent) : Bool :=
  match l with
  | CallEvent.resetEpisode _ :: body => altBody training body
  | _ => false

/-! ## Q-surface plotting (`MountainCar.plot_Q`) -/

/-- The DDPG agent as `plot_Q` sees it.  The agent class itself is an
external collaborator (not part of the verified source): `criticLocal`
and `actorLocal` are the opaque `critic_local.model.predict` and
`actor_local.model.predict` backends, and `learnState` (type parameter
`α`) stands for all of the agent's remaining mutable learning state
(replay buffer, noise state, local/target parameters). -/
structure DDPGAgent (α : Type) where
  criticLocal : ℚ → ℚ → ℚ → ℚ
  actorLocal : ℚ → ℚ → ℚ
  learnState : α

/-- `np.arange(-1, 1 + 0.1, 0.1)`: the 21 grid points
`-1, -0.9, …, 1` used by `plot_Q` for states (`plot_range`). -/
def plotRange : List ℚ := (List.range 21).map (fun i => -1 + (i : ℚ) / 10)

/-- `np.arange(-1, 1 + 0.1, 0.1)`: the action grid of `plot_Q`
(`action_range` in the source, with `action_step = 0.1`). -/
def actionGrid : List ℚ := (List.range 21).map (fun i => -1 + (i : ℚ) / 10)

/-- `np.max` of a list (its greatest element; `0` for the empty list,
which does not occur on the nonempty grids). -/
def npMax : List ℚ → ℚ
  | [] => 0
  | x :: xs => xs.foldl max x

/-- Accumulator loop for `np.argmax`: index of the first maximal
element. -/
def npArgmaxAux : List ℚ → ℕ → ℚ → ℕ → ℕ
  | [], _, _, bestIdx => bestIdx
  | x :: xs, i, best, bestIdx =>
    if best < x then npArgmaxAux xs (i + 1) x i
    else npArgmaxAux xs (i + 1) best bestIdx

/-- `np.argmax` of a list: the index of its first maximal element
(`0` for the empty list). -/
def npArgmax : List ℚ → ℕ
  | [] => 0
  | x :: xs => npArgmaxAux xs 1 x 0

/-- The population variance `np.var` of a list; `np.std` (the value
`plot_Q` stores in `matrix_sQ`) is its square root, a display-only real
number with no exact rational counterpart. -/
def npVariance (l : List ℚ) : ℚ := mean (l.map (fun x => (x - mean l) ^ 2))

/-- One heat-map cell of `plot_Q` at grid state `(pos, vel)`:
`matrix_Q[i][j] = np.max(Q_list)`, `matrix_sQ[i][j] = np.std(Q_list)`
(carried as its square, the variance), `matrix_mQ[i][j] =
action_range[np.argmax(Q_list)]`, and `matrix_A[i][j] =
actor_local.model.predict(state)`. -/
structure PlotCell where
  maxQ : ℚ
  varQ : ℚ
  argmaxAction : ℚ
  predictedAction : ℚ
  deriving DecidableEq, Repr

/-- The body of the inner `plot_Q` loops at grid state `(pos, vel)`:
queries `critic_local.model.predict([state, action])` over the action
grid, `actor_local.model.predict(state)` once, and summarizes; returns
the cell together with the trace of collaborator calls it makes. -/
def plotQCell {α : Type} (ag : DDPGAgent α) (pos vel : ℚ) :
    PlotCell × List CallEvent :=
  let qlist := actionGrid.map (fun a => ag.criticLocal pos vel a)
  (⟨npMax qlist, npVariance qlist, actionGrid.getD (npArgmax qlist) 0,
      ag.actorLocal pos vel⟩,
    actionGrid.map (fun a => CallEvent.criticPredict pos vel a) ++
      [CallEvent.actorPredict pos vel])

/-- `MountainCar.plot_Q`: iterates the cell computation over the state
grid (`vel` on the outer loop index `i`, `pos` on the inner index `j`);
returns the matrices, the full collaborator-call trace, and the agent
as left behind (the source assigns to no agent attribute). -/
def plotQ {α : Type} (ag : DDPGAgent α) :
    (List (List PlotCell) × List CallEvent) × DDPGAgent α :=
  ((plotRange.map (fun vel => plotRange.map (fun pos =>
        (plotQCell ag pos vel).1)),
    plotRange.flatMap (fun vel => plotRange.flatMap (fun pos =>
        (plotQCell ag pos vel).2))),
   ag)

/-! ## Training driver (`MountainCar.run_model`)

The two `run_epoch` calls of each epoch involve the environment and the
agent, both external collaborators; their per-epoch results enter the
model as oracle streams `td te : ℕ → ℚ × ℕ` giving the
`(reward, steps)` pair returned by the training run and the test
(`training=False`) run of each epoch (epochs are numbered from 1). -/

/-- The `for epoch in range(1, max_epochs+1)` loop of `run_model`:
appends `[reward, steps]` to both histories, computes the running mean
`test_running` of the last `n_solved` test rewards (of all of them while
`epoch ≤ n_solved`), and breaks with `solved = epoch` once
`test_running > r_solved and epoch > n_solved`.  `rem` is the number of
epochs still to run; the histories are accumulated in order. -/
def runModelGo (td te : ℕ → ℚ × ℕ) (nSolved : ℕ) (rSolved : ℚ) :
    ℕ → ℕ → List (ℚ × ℕ) → List (ℚ × ℕ) →
      List (ℚ × ℕ) × List (ℚ × ℕ) × Option ℕ
  | 0, _, train_hist, test_hist => (train_hist, test_hist, none)
  | rem + 1, epoch, train_hist, test_hist =>
    let train_hist' := train_hist ++ [td epoch]
    let test_hist' := test_hist ++ [te epoch]
    let test_running :=
      if nSolved < epoch then
        mean (takeLastPy nSolved (test_hist'.map Prod.fst))
      else mean (test_hist'.map Prod.fst)
    if rSolved < test_running ∧ nSolved < epoch then
      (train_hist', test_hist', some epoch)
    else runModelGo td te nSolved rSolved rem (epoch + 1) train_hist'
      test_hist'

/-- `MountainCar.run_model`: runs up to `max_epochs` epochs starting
from epoch 1 with empty histories; returns
`(train_hist, test_hist, solved)`, with `none` modelling the Python
`solved = False`. -/
def runModel (maxEpochs nSolved : ℕ) (rSolved : ℚ) (td te : ℕ → ℚ × ℕ) :
    List (ℚ × ℕ) × List (ℚ × ℕ) × Option ℕ :=
  runModelGo td te nSolved rSolved maxEpochs 1 [] []

/-- The history a result stream `f` yields after `k` completed epochs:
entry `i` (0-based) is the pair of epoch `i + 1`. -/
def epochHist (f : ℕ → ℚ × ℕ) (k : ℕ) : List (ℚ × ℕ) :=
  (List.range k).map (fun i => f (i + 1))

/-- The running mean `run_model` compares against `r_solved` at the end
of epoch `e` (for `e > n_solved`): the mean of the last `n_solved` test
rewards recorded so far. -/
def testRunningMean (te : ℕ → ℚ × ℕ) (nSolved e : ℕ) : ℚ :=
  mean (takeLastPy nSolved ((epochHist te e).map Prod.fst))

/-- The exact break condition of `run_model` at the end of epoch `e`:
`epoch > n_solved` and the running mean of the last `n_solved` test
rewards strictly exceeds `r_solved`. -/
def solvedTrigger (te : ℕ → ℚ × ℕ) (nSolved : ℕ) (rSolved : ℚ) (e : ℕ) :
    Prop :=
  nSolved < e ∧ rSolved < testRunningMean te nSolved e

instance (te : ℕ → ℚ × ℕ) (nSolved : ℕ) (rSolved : ℚ) (e : ℕ) :
    Decidable (solvedTrigger te nSolved rSolved e) :=
  inferInstanceAs (Decidable (_ ∧ _))

/-- Search for the first epoch in `[epoch, epoch + rem)` satisfying the
break condition of `run_model`. -/
def findTrigger (te : ℕ → ℚ × ℕ) (nSolved : ℕ) (rSolved : ℚ) :
    ℕ → ℕ → Option ℕ
  | 0, _ => none
  | rem + 1, epoch =>
    if solvedTrigger te nSolved rSolved epoch then some epoch
    else findTrigger te nSolved rSolved rem (epoch + 1)

/-- A constant per-epoch result stream (reward `100`, `5` steps), used
as concrete counterexample data. -/
def constData100 : ℕ → ℚ × ℕ := fun _ => (100, 5)

/-- A one-iteration episode oracle used by concrete witnesses: `act`
returns noisy action `2` and pure action `1`, `env.step` returns raw
next state `(0, 0)`, reward `5`, and reports `done`. -/
def epochWitnessData : List StepData := [⟨2, 1, 5, (0, 0), true⟩]

/-- The result `run_epoch` produces on `epochWitnessData` with
`training = true` from raw initial state `(0, 0)` (whose preprocessed
form is `(1/3, 0)`). -/
def epochWitnessRes : EpochResult :=
  { total_reward := 5, done := true, actions_list := [1], steps := 1,
    trace := [CallEvent.resetEpisode (1/3, 0), CallEvent.agentAct (1/3, 0),
      CallEvent.envStep 2, CallEvent.agentStep 2 5 (1/3, 0) true] }

end MountainCarSpec

namespace MountainCarSpec

/-- C3 (confirmed): the Lambda layer built from `__init__`'s stored
`action_range = action_high - action_low` computes the same function of
the raw tanh output as the spec's formula
`scaled = low + (raw_tanh + 1) * (high - low) / 2`. -/
theorem actor_lambda_eq_spec_rescale :
    ∀ low high x : ℚ,
      (Actor.mk' low high).lambdaLayer x = specRescale low high x := by
  intro low high x
  simp only [Actor.mk', Actor.lambdaLayer, specRescale]
  ring

/-- C2 (confirmed): for a raw tanh output `x ∈ [-1, 1]` and
`action_low ≤ action_high`, the rescaled actor output lies within
`[action_low, action_high]` inclusive. -/
theorem actor_output_in_bounds (low high x : ℚ)
    (hlh : low ≤ high) (hx1 : -1 ≤ x) (hx2 : x ≤ 1) :
    low ≤ (Actor.mk' low high).lambdaLayer x ∧
      (Actor.mk' low high).lambdaLayer x ≤ high := by
  simp only [Actor.mk', Actor.lambdaLayer]
  constructor <;> nlinarith

/-- Witness for C2 at `low = -2`, `high = 3`, `x = 1/2`. -/
theorem actor_output_in_bounds_witness :
    (-2 : ℚ) ≤ (Actor.mk' (-2) 3).lambdaLayer (1/2) ∧
      (Actor.mk' (-2) 3).lambdaLayer (1/2) ≤ 3 :=
  actor_output_in_bounds (-2) 3 (1/2) (by norm_num) (by norm_num) (by norm_num)

/-- C4 (confirmed): the actor training loss `K.mean(-action_gradients *
actions)` equals the negated mean of the elementwise product of the
critic's action gradients with the actor's output actions. -/
theorem actor_loss_is_neg_mean_product :
    ∀ g a : List ℚ, actorLoss g a = -mean (List.zipWith (· * ·) g a) := by
  intro g a
  have hzip : List.zipWith (fun gi ai => -gi * ai) g a =
      (List.zipWith (· * ·) g a).map (fun z => -z) := by
    induction g generalizing a with
    | nil => simp
    | cons gh gt ih =>
      cases a with
      | nil => simp
      | cons ah at' =>
        rw [List.zipWith_cons_cons, List.zipWith_cons_cons, List.map_cons,
          ih, neg_mul]
  have hsum : ∀ l : List ℚ, (l.map (fun z => -z)).sum = -l.sum := by
    intro l
    induction l with
    | nil => simp
    | cons h t ih =>
      simp only [List.map_cons, List.sum_cons, ih]
      ring
  simp only [actorLoss, mean, hzip, hsum, List.length_map, neg_div]

/-- C8 (confirmed): for raw position in `[-1.2, 0.6]` and raw velocity in
`[-0.07, 0.07]`, both components of `preprocess_state` lie in `[-1, 1]`,
and the endpoints of the raw ranges map exactly to `-1` and `1`. -/
theorem preprocess_state_in_bounds (p v : ℚ)
    (hp1 : -1.2 ≤ p) (hp2 : p ≤ 0.6) (hv1 : -0.07 ≤ v) (hv2 : v ≤ 0.07) :
    (-1 ≤ (preprocessState (p, v)).1 ∧ (preprocessState (p, v)).1 ≤ 1 ∧
      -1 ≤ (preprocessState (p, v)).2 ∧ (preprocessState (p, v)).2 ≤ 1) ∧
    preprocessState (-1.2, -0.07) = (-1, -1) ∧
    preprocessState (0.6, 0.07) = (1, 1) := by
  have keyp : (p + 1.2) / 1.8 * 2 - 1 = (10/9) * p + 1/3 := by ring
  have keyv : (v + 0.07) / 0.14 * 2 - 1 = (100/7) * v := by ring
  refine ⟨⟨?_, ?_, ?_, ?_⟩, by norm_num [preprocessState, Prod.ext_iff],
    by norm_num [preprocessState, Prod.ext_iff]⟩
  all_goals simp only [preprocessState]
  · linarith [keyp]
  · linarith [keyp]
  · linarith [keyv]
  · linarith [keyv]

/-- Unfolding lemma: without training, an `agentAct` head is consumed by
the alternation checker. -/
lemma altBody_act_notTraining (s : ℚ × ℚ) (t : List CallEvent) :
    altBody false (CallEvent.agentAct s :: t) = altBody false t := by
  conv_lhs => rw [altBody.eq_def]
  simp

/-- Unfolding lemma: with training, an `agentAct` followed by an
`agentStep` is consumed as one group by the alternation checker. -/
lemma altBody_act_step_training (s ns : ℚ × ℚ) (a r : ℚ) (dd : Bool)
    (t : List CallEvent) :
    altBody true
        (CallEvent.agentAct s :: CallEvent.agentStep a r ns dd :: t) =
      altBody true t := by
  conv_lhs => rw [altBody.eq_def]
  simp

/-- Full characterization of the `run_epoch` interaction loop on the
consumed oracle prefix: the episode ends `done`, the reward total, step
count, recorded pure actions, environment-step trace, agent-step trace
and the agent-call alternation contract are all determined by the first
`res.steps` oracle entries. -/
lemma runEpochGo_spec (training : Bool) (data : List StepData) :
    ∀ (st : ℚ × ℚ) (res : EpochResult),
      runEpochGo training st data = some res →
      res.done = true ∧
      res.total_reward = ((data.take res.steps).map StepData.reward).sum ∧
      (res.trace.filter CallEvent.isEnvStep).length = res.steps ∧
      1 ≤ res.steps ∧
      res.actions_list = (data.take res.steps).map StepData.pure_action ∧
      res.trace.filter CallEvent.isEnvStep =
        (data.take res.steps).map (fun d =>
          CallEvent.envStep
            (if training then d.noisy_action else d.pure_action)) ∧
      res.trace.filter CallEvent.isAgentStep =
        (if training then
           (data.take res.steps).map (fun d =>
             CallEvent.agentStep d.noisy_action d.reward
               (preprocessState d.rawNext) d.done)
         else []) ∧
      altBody training (res.trace.filter CallEvent.isAgentCall) = true := by
  induction data with
  | nil =>
    intro st res h
    simp [runEpochGo] at h
  | cons d rest ih =>
    intro st res h
    simp only [runEpochGo] at h
    by_cases hd : d.done = true
    · rw [if_pos hd] at h
      replace h := Option.some.inj h
      subst h
      cases training <;>
        simp [hd, CallEvent.isEnvStep, CallEvent.isAgentStep,
          CallEvent.isAgentCall, altBody]
    · rw [if_neg hd] at h
      cases heq : runEpochGo training (preprocessState d.rawNext) rest with
      | none => rw [heq] at h; simp at h
      | some res' =>
        rw [heq] at h
        replace h := Option.some.inj h
        subst h
        obtain ⟨hdone, hrew, hlen, hsteps, hacts, henv, hastep, halt⟩ :=
          ih _ _ heq
        cases training <;>
          simp_all [CallEvent.isEnvStep, CallEvent.isAgentStep,
            CallEvent.isAgentCall, altBody_act_notTraining,
            altBody_act_step_training, List.filter_append,
            List.take_succ_cons, Nat.add_comm]

/-- C9 (confirmed): whenever `run_epoch` returns, the returned `done`
flag is true, the returned `total_reward` is the sum of the rewards the
environment's `step` calls returned during the episode, and the
returned `steps` equals the number of environment `step` calls made,
which is at least 1. -/
theorem run_epoch_return_invariants (training : Bool) (s0 : ℚ × ℚ)
    (data : List StepData) (res : EpochResult)
    (h : runEpoch training s0 data = some res) :
    res.done = true ∧
    res.total_reward = ((data.take res.steps).map StepData.reward).sum ∧
    (res.trace.filter CallEvent.isEnvStep).length = res.steps ∧
    1 ≤ res.steps := by
  unfold runEpoch at h
  cases heq : runEpochGo training (preprocessState s0) data with
  | none => rw [heq] at h; simp at h
  | some res' =>
    rw [heq] at h
    replace h := Option.some.inj h
    subst h
    obtain ⟨hdone, hrew, hlen, hsteps, -, -, -, -⟩ :=
      runEpochGo_spec training data _ _ heq
    exact ⟨hdone, hrew, by simpa [CallEvent.isEnvStep] using hlen, hsteps⟩

/-- Witness for C9: a one-step episode that ends immediately. -/
theorem run_epoch_return_invariants_witness :
    epochWitnessRes.done = true ∧
    epochWitnessRes.total_reward =
      ((epochWitnessData.take epochWitnessRes.steps).map
        StepData.reward).sum ∧
    (epochWitnessRes.trace.filter CallEvent.isEnvStep).length =
      epochWitnessRes.steps ∧
    1 ≤ epochWitnessRes.steps :=
  run_epoch_return_invariants true (0, 0) epochWitnessData epochWitnessRes
    (by norm_num [runEpoch, runEpochGo, preprocessState, epochWitnessData,
      epochWitnessRes])

/-- C5 (confirmed): in `run_epoch`, the action passed to the
environment's `step` (and, when training, to the agent's learning
`step`) is the noisy action when `training` is true and the pure action
when `training` is false, while the action recorded in `actions_list`
(from which the reported action mean/std are computed) is always the
pure action. -/
theorem run_epoch_action_selection (training : Bool) (s0 : ℚ × ℚ)
    (data : List StepData) (res : EpochResult)
    (h : runEpoch training s0 data = some res) :
    res.actions_list = (data.take res.steps).map StepData.pure_action ∧
    res.trace.filter CallEvent.isEnvStep =
      (data.take res.steps).map (fun d =>
        CallEvent.envStep
          (if training then d.noisy_action else d.pure_action)) ∧
    res.trace.filter CallEvent.isAgentStep =
      (if training then
         (data.take res.steps).map (fun d =>
           CallEvent.agentStep d.noisy_action d.reward
             (preprocessState d.rawNext) d.done)
       else []) := by
  unfold runEpoch at h
  cases heq : runEpochGo training (preprocessState s0) data with
  | none => rw [heq] at h; simp at h
  | some res' =>
    rw [heq] at h
    replace h := Option.some.inj h
    subst h
    obtain ⟨-, -, -, -, hacts, henv, hastep, -⟩ :=
      runEpochGo_spec training data _ _ heq
    refine ⟨hacts, ?_, ?_⟩
    · simpa [CallEvent.isEnvStep] using henv
    · simpa [CallEvent.isAgentStep] using hastep

/-- Witness for C5 on the one-step training episode. -/
theorem run_epoch_action_selection_witness :
    epochWitnessRes.actions_list =
      (epochWitnessData.take epochWitnessRes.steps).map
        StepData.pure_action ∧
    epochWitnessRes.trace.filter CallEvent.isEnvStep =
      (epochWitnessData.take epochWitnessRes.steps).map (fun d =>
        CallEvent.envStep
          (if true then d.noisy_action else d.pure_action)) ∧
    epochWitnessRes.trace.filter CallEvent.isAgentStep =
      (if true then
         (epochWitnessData.take epochWitnessRes.steps).map (fun d =>
           CallEvent.agentStep d.noisy_action d.reward
             (preprocessState d.rawNext) d.done)
       else []) :=
  run_epoch_action_selection true (0, 0) epochWitnessData epochWitnessRes
    (by norm_num [runEpoch, runEpochGo, preprocessState, epochWitnessData,
      epochWitnessRes])

/-- C6 (confirmed): the trace of agent calls made by `run_epoch` is
exactly one leading `reset_episode` followed by alternating `act`/`step`
groups — when training each `act` is immediately followed (within the
same loop iteration) by the matching learning `step`, and when not
training no learning `step` occurs at all. -/
theorem run_epoch_agent_call_protocol (training : Bool) (s0 : ℚ × ℚ)
    (data : List StepData) (res : EpochResult)
    (h : runEpoch training s0 data = some res) :
    altTraceOk training (res.trace.filter CallEvent.isAgentCall) = true := by
  unfold runEpoch at h
  cases heq : runEpochGo training (preprocessState s0) data with
  | none => rw [heq] at h; simp at h
  | some res' =>
    rw [heq] at h
    replace h := Option.some.inj h
    subst h
    obtain ⟨-, -, -, -, -, -, -, halt⟩ :=
      runEpochGo_spec training data _ _ heq
    simpa [CallEvent.isAgentCall, altTraceOk] using halt

/-- Witness for C6 on the one-step training episode. -/
theorem run_epoch_agent_call_protocol_witness :
    altTraceOk true (epochWitnessRes.trace.filter CallEvent.isAgentCall) =
      true :=
  run_epoch_agent_call_protocol true (0, 0) epochWitnessData epochWitnessRes
    (by norm_num [runEpoch, runEpochGo, preprocessState, epochWitnessData,
      epochWitnessRes])

/-- Witness for C8 at the raw state `(0, 0)`. -/
theorem preprocess_state_in_bounds_witness :
    (-1 ≤ (preprocessState ((0 : ℚ), (0 : ℚ))).1 ∧
      (preprocessState ((0 : ℚ), (0 : ℚ))).1 ≤ 1 ∧
      -1 ≤ (preprocessState ((0 : ℚ), (0 : ℚ))).2 ∧
      (preprocessState ((0 : ℚ), (0 : ℚ))).2 ≤ 1) ∧
    preprocessState (-1.2, -0.07) = (-1, -1) ∧
    preprocessState (0.6, 0.07) = (1, 1) :=
  preprocess_state_in_bounds 0 0 (by norm_num) (by norm_num) (by norm_num)
    (by norm_num)

/-- C7 (confirmed): `plot_Q` queries only the read-only `predict`
operations of `critic_local` and `actor_local` over the state/action
grid — every collaborator call in its trace is a prediction, never
`act`, `step`, `reset_episode` or a training update — and it returns
the agent exactly as it found it. -/
theorem plot_q_readonly {α : Type} (ag : DDPGAgent α) :
    (plotQ ag).2 = ag ∧
    (plotQ ag).1.2.all
      (fun e => e.isPredictOnly && !e.isAgentCall) = true := by
  refine ⟨rfl, ?_⟩
  rw [List.all_eq_true]
  intro e he
  simp only [plotQ, plotQCell, List.mem_flatMap, List.mem_append,
    List.mem_map, List.mem_singleton] at he
  obtain ⟨vel, -, pos, -, he⟩ := he
  rcases he with ⟨a, -, rfl⟩ | rfl <;> rfl

/-- The history after `k + 1` epochs is the history after `k` epochs
with the pair of epoch `k + 1` appended. -/
lemma epochHist_snoc (f : ℕ → ℚ × ℕ) (k : ℕ) :
    epochHist f k ++ [f (k + 1)] = epochHist f (k + 1) := by
  simp [epochHist, List.range_succ]

/-- The history after `k` epochs has `k` entries. -/
lemma epochHist_length (f : ℕ → ℚ × ℕ) (k : ℕ) :
    (epochHist f k).length = k := by
  simp [epochHist]

/-- The epoch loop of `run_model`, started at epoch `epoch` with the
histories of the first `epoch - 1` epochs accumulated, breaks at the
first epoch in `[epoch, epoch + rem)` satisfying the break condition
(returning the histories up to it and that epoch as `solved`), and runs
all `rem` remaining epochs returning `solved = none` when no epoch in
range satisfies it. -/
lemma runModelGo_eq (td te : ℕ → ℚ × ℕ) (nS : ℕ) (rS : ℚ) :
    ∀ rem epoch : ℕ, 1 ≤ epoch →
      runModelGo td te nS rS rem epoch (epochHist td (epoch - 1))
          (epochHist te (epoch - 1)) =
        match findTrigger te nS rS rem epoch with
        | some e => (epochHist td e, epochHist te e, some e)
        | none =>
            (epochHist td (epoch - 1 + rem), epochHist te (epoch - 1 + rem),
              none) := by
  intro rem
  induction rem with
  | zero =>
    intro epoch h
    simp [runModelGo, findTrigger]
  | succ r ih =>
    intro epoch h
    obtain ⟨k, rfl⟩ : ∃ k, epoch = k + 1 := ⟨epoch - 1, by omega⟩
    have hk : k + 1 - 1 = k := rfl
    rw [runModelGo, hk, epochHist_snoc, epochHist_snoc]
    have hcond : (rS <
        (if nS < k + 1 then
          mean (takeLastPy nS ((epochHist te (k + 1)).map Prod.fst))
         else mean ((epochHist te (k + 1)).map Prod.fst)) ∧ nS < k + 1) ↔
        solvedTrigger te nS rS (k + 1) := by
      by_cases h1 : nS < k + 1 <;>
        simp [solvedTrigger, testRunningMean, h1, and_comm]
    rw [findTrigger]
    by_cases htr : solvedTrigger te nS rS (k + 1)
    · rw [if_pos (hcond.mpr htr), if_pos htr]
    · rw [if_neg (fun hc => htr (hcond.mp hc)), if_neg htr]
      have hrec := ih (k + 2) (by omega)
      have hk2 : k + 2 - 1 = k + 1 := rfl
      rw [hk2] at hrec
      rw [hrec]
      cases findTrigger te nS rS r (k + 2) with
      | some e => rfl
      | none =>
        have harith : k + 1 + r = k + (r + 1) := by omega
        rw [harith]

/-- Soundness of the break-epoch search: a found epoch lies in range,
satisfies the break condition, and no earlier epoch in range does. -/
lemma findTrigger_some_spec (te : ℕ → ℚ × ℕ) (nS : ℕ) (rS : ℚ) :
    ∀ rem epoch e : ℕ, findTrigger te nS rS rem epoch = some e →
      epoch ≤ e ∧ e < epoch + rem ∧ solvedTrigger te nS rS e ∧
        ∀ k, epoch ≤ k → k < e → ¬ solvedTrigger te nS rS k := by
  intro rem
  induction rem with
  | zero =>
    intro epoch e h
    simp [findTrigger] at h
  | succ r ih =>
    intro epoch e h
    rw [findTrigger] at h
    by_cases htr : solvedTrigger te nS rS epoch
    · rw [if_pos htr] at h
      obtain rfl := Option.some.inj h
      exact ⟨le_refl _, by omega, htr, fun k h1 h2 => absurd (h1.trans_lt h2)
        (lt_irrefl _)⟩
    · rw [if_neg htr] at h
      obtain ⟨h1, h2, h3, h4⟩ := ih (epoch + 1) e h
      refine ⟨by omega, by omega, h3, ?_⟩
      intro k hk1 hk2
      rcases Nat.eq_or_lt_of_le hk1 with rfl | hlt
      · exact htr
      · exact h4 k (by omega) hk2

/-- When the break-epoch search fails, no epoch in range satisfies the
break condition. -/
lemma findTrigger_none_spec (te : ℕ → ℚ × ℕ) (nS : ℕ) (rS : ℚ) :
    ∀ rem epoch : ℕ, findTrigger te nS rS rem epoch = none →
      ∀ k, epoch ≤ k → k < epoch + rem → ¬ solvedTrigger te nS rS k := by
  intro rem
  induction rem with
  | zero =>
    intro epoch h k hk1 hk2
    omega
  | succ r ih =>
    intro epoch h k hk1 hk2
    rw [findTrigger] at h
    by_cases htr : solvedTrigger te nS rS epoch
    · rw [if_pos htr] at h
      exact absurd h (by simp)
    · rw [if_neg htr] at h
      rcases Nat.eq_or_lt_of_le hk1 with rfl | hlt
      · exact htr
      · exact ih (epoch + 1) h k (by omega) (by omega)

/-- Completeness of the break-epoch search: the least epoch in range
satisfying the break condition is found. -/
lemma findTrigger_complete (te : ℕ → ℚ × ℕ) (nS : ℕ) (rS : ℚ) :
    ∀ rem epoch e : ℕ, epoch ≤ e → e < epoch + rem →
      solvedTrigger te nS rS e →
      (∀ k, epoch ≤ k → k < e → ¬ solvedTrigger te nS rS k) →
      findTrigger te nS rS rem epoch = some e := by
  intro rem
  induction rem with
  | zero =>
    intro epoch e h1 h2
    omega
  | succ r ih =>
    intro epoch e h1 h2 htr hmin
    rw [findTrigger]
    by_cases hep : solvedTrigger te nS rS epoch
    · have he : e = epoch := by
        by_contra hne
        exact hmin epoch (le_refl _) (by omega) hep
      rw [he, if_pos hep]
    · rw [if_neg hep]
      have hne : epoch ≠ e := fun hcontra => hep (hcontra ▸ htr)
      exact ih (epoch + 1) e (by omega) (by omega) htr
        (fun k hk1 hk2 => hmin k (by omega) hk2)

/-- C10 (confirmed): when `run_model` returns, `train_hist` and
`test_hist` have equal length `k`, `k` is the number of epochs executed
and is at most `max_epochs`, entry `i` of each history is the
`[reward, steps]` pair of epoch `i + 1`, and the returned `solved` is
either `False` (`none`) or the epoch `k` at which the break condition
fired. -/
theorem run_model_history_invariants (maxEpochs nSolved : ℕ) (rSolved : ℚ)
    (td te : ℕ → ℚ × ℕ) :
    ∃ k, k ≤ maxEpochs ∧
      (runModel maxEpochs nSolved rSolved td te).1 = epochHist td k ∧
      (runModel maxEpochs nSolved rSolved td te).2.1 = epochHist te k ∧
      (runModel maxEpochs nSolved rSolved td te).1.length =
        (runModel maxEpochs nSolved rSolved td te).2.1.length ∧
      (runModel maxEpochs nSolved rSolved td te).1.length = k ∧
      ((runModel maxEpochs nSolved rSolved td te).2.2 = none ∨
        ((runModel maxEpochs nSolved rSolved td te).2.2 = some k ∧
          solvedTrigger te nSolved rSolved k)) := by
  have hgo := runModelGo_eq td te nSolved rSolved maxEpochs 1 (le_refl 1)
  have hrm : runModel maxEpochs nSolved rSolved td te =
      (match findTrigger te nSolved rSolved maxEpochs 1 with
       | some e => (epochHist td e, epochHist te e, some e)
       | none =>
           (epochHist td (1 - 1 + maxEpochs), epochHist te (1 - 1 + maxEpochs),
             none)) := hgo
  cases hft : findTrigger te nSolved rSolved maxEpochs 1 with
  | some e =>
    rw [hft] at hrm
    obtain ⟨h1, h2, h3, -⟩ :=
      findTrigger_some_spec te nSolved rSolved maxEpochs 1 e hft
    exact ⟨e, by omega, by rw [hrm], by rw [hrm],
      by rw [hrm]; simp [epochHist_length],
      by rw [hrm]; simp [epochHist_length],
      Or.inr ⟨by rw [hrm], h3⟩⟩
  | none =>
    rw [hft] at hrm
    have hme : 1 - 1 + maxEpochs = maxEpochs := by omega
    rw [hme] at hrm
    exact ⟨maxEpochs, le_refl _, by rw [hrm], by rw [hrm],
      by rw [hrm]; simp [epochHist_length],
      by rw [hrm]; simp [epochHist_length],
      Or.inl (by rw [hrm])⟩

/-- C1 counterexample: with `n_solved = 1`, `r_solved = 90` and test
rewards constantly `100`, the running mean of the last `n_solved` test
rewards already strictly exceeds `r_solved` at epoch 1 — the first such
epoch — yet `run_model` with `max_epochs = 1` returns `solved = False`:
the code's break additionally requires `epoch > n_solved`, so the claim
that the condition triggers at exactly the first epoch where the mean
exceeds the threshold is false. -/
theorem solved_detection_counterexample :
    (runModel 1 1 90 constData100 constData100).2.2 = none ∧
    (90 : ℚ) < testRunningMean constData100 1 1 := by
  constructor
  · norm_num [runModel, runModelGo, constData100, mean, takeLastPy]
  · norm_num [testRunningMean, epochHist, mean, takeLastPy, constData100,
      List.range_succ]

/-- C1 (corrected, amended claim proved): `run_model` sets
`solved = e` exactly at the first epoch `e` that satisfies both
`e > n_solved` and running-mean-of-last-`n_solved`-test-rewards
`> r_solved` (within the `max_epochs` budget); with no such epoch it
returns `solved = False`. -/
theorem solved_detection_amended (maxEpochs nSolved : ℕ) (rSolved : ℚ)
    (td te : ℕ → ℚ × ℕ) (e : ℕ) :
    (runModel maxEpochs nSolved rSolved td te).2.2 = some e ↔
      (e ≤ maxEpochs ∧ solvedTrigger te nSolved rSolved e ∧
        ∀ k, k < e → ¬ solvedTrigger te nSolved rSolved k) := by
  have hgo := runModelGo_eq td te nSolved rSolved maxEpochs 1 (le_refl 1)
  have hrm : runModel maxEpochs nSolved rSolved td te =
      (match findTrigger te nSolved rSolved maxEpochs 1 with
       | some e' => (epochHist td e', epochHist te e', some e')
       | none =>
           (epochHist td (1 - 1 + maxEpochs), epochHist te (1 - 1 + maxEpochs),
             none)) := hgo
  cases hft : findTrigger te nSolved rSolved maxEpochs 1 with
  | some e' =>
    rw [hft] at hrm
    rw [hrm]
    obtain ⟨h1, h2, h3, h4⟩ :=
      findTrigger_some_spec te nSolved rSolved maxEpochs 1 e' hft
    constructor
    · intro heq
      obtain rfl : e' = e := Option.some.inj heq
      refine ⟨by omega, h3, ?_⟩
      intro k hk
      rcases Nat.eq_zero_or_pos k with rfl | hpos
      · exact fun hcontra => absurd hcontra.1 (Nat.not_lt_zero _)
      · exact h4 k hpos hk
    · rintro ⟨he1, he2, he3⟩
      have h1e : 1 ≤ e := by
        have := he2.1
        omega
      have hfe : findTrigger te nSolved rSolved maxEpochs 1 = some e :=
        findTrigger_complete te nSolved rSolved maxEpochs 1 e h1e (by omega)
          he2 (fun k hk1 hk2 => he3 k hk2)
      rw [hft] at hfe
      exact hfe
  | none =>
    rw [hft] at hrm
    rw [hrm]
    constructor
    · intro h
      exact absurd h (by simp)
    · rintro ⟨he1, he2, he3⟩
      have hnone := findTrigger_none_spec te nSolved rSolved maxEpochs 1 hft
      have h1e : 1 ≤ e := by
        have := he2.1
        omega
      exact absurd he2 (hnone e h1e (by omega))

end MountainCarSpec
